import Mathlib

/-!
Shallow embedding of `src/linefuzzyfinder.cpp`.

Modelling conventions:
* A C++ `std::string` is a `List Nat` of its bytes (the typographic quotes and
  the dash in the word-break set are multi-byte UTF-8 sequences, so the break
  test is a per-byte test, exactly as `std::string::find(char)` performs it).
* A C++ `double` is a `ℚ`.  A `double` expression that the program can turn
  into NaN (the two `0.0 / 0.0` divisions) is an `Option ℚ`, with `none`
  playing the role of NaN: any arithmetic combination with NaN is NaN, and
  every ordered comparison against NaN is false, which is exactly how the
  `match`/`if` translations below treat `none`.
* A C++ `std::unordered_map<K, size_t>` is a `List (K × Nat)` whose keys are
  pairwise distinct (first-insertion order); `operator==` on unordered maps is
  the content comparison `tableEq`.
-/

/-- `WordSet::doesBreakWord`: byte-level membership in `" (),.!:;\"“‘’”—"`
(the five typographic characters contribute their UTF-8 bytes). -/
def doesBreakWord (c : Nat) : Bool :=
  c = 32 || c = 40 || c = 41 || c = 44 || c = 46 || c = 33 || c = 58 || c = 59 ||
  c = 34 || c = 226 || c = 128 || c = 156 || c = 152 || c = 153 || c = 157 || c = 148

/-- `std::tolower` on a byte: ASCII uppercase folds, every other byte is
returned unchanged. -/
def toLowerByte (c : Nat) : Nat :=
  if 65 ≤ c ∧ c ≤ 90 then c + 32 else c

/-- The characters written by the in-place collapse loop of `WordSet::WordSet`
(the prefix `mLine[0..begin)` after the loop), with `brk` playing the role of
`isBreakingWord`. -/
def collapseWritten (brk : Bool) : List Nat → List Nat
  | [] => []
  | c :: rest =>
    if doesBreakWord c then
      if brk then collapseWritten brk rest
      else 32 :: collapseWritten true rest
    else c :: collapseWritten false rest

/-- The full contents of `mLine` after the collapse loop: the written prefix
followed by the untouched tail of the buffer (the loop never shrinks the
string, so the bytes from position `begin` onward keep their old values). -/
def collapseLine (s : List Nat) : List Nat :=
  collapseWritten true s ++ s.drop (collapseWritten true s).length

/-- The words collected by the word-counting loop of `WordSet::WordSet`:
`cur` is the pending segment `mLine[begin..end)`.  A breaking character with a
non-empty pending segment emits the segment (and is consumed, `begin = end+1`);
a breaking character with an empty pending segment joins the segment (`begin`
is not advanced); a non-breaking character always joins the segment; the final
flush emits a non-empty pending segment. -/
def collectWords (cur : List Nat) : List Nat → List (List Nat)
  | [] => if cur.isEmpty then [] else [cur]
  | c :: rest =>
    if doesBreakWord c then
      if cur.isEmpty then collectWords [c] rest
      else cur :: collectWords [] rest
    else collectWords (cur ++ [c]) rest

/-- Find-then-increment-or-emplace on a frequency table. -/
def bumpCount {α : Type} [DecidableEq α] : List (α × Nat) → α → List (α × Nat)
  | [], k => [(k, 1)]
  | (k', c) :: rest, k =>
    if k' = k then (k', c + 1) :: rest else (k', c) :: bumpCount rest k

/-- Build a frequency table by counting a list of items. -/
def buildTable {α : Type} [DecidableEq α] (items : List α) : List (α × Nat) :=
  items.foldl bumpCount []

/-- `unordered_map::find`. -/
def tableFind {α : Type} [DecidableEq α] (t : List (α × Nat)) (k : α) : Option Nat :=
  match t.find? (fun p => decide (p.1 = k)) with
  | some p => some p.2
  | none => none

/-- `operator==` on `unordered_map`: same size and every entry of the first
table is found, with the same mapped count, in the second. -/
def tableEq {α : Type} [DecidableEq α] (t1 t2 : List (α × Nat)) : Bool :=
  t1.length == t2.length && t1.all (fun p => tableFind t2 p.1 == some p.2)

/-- The `WordSet` class: the stored line and the two frequency tables. -/
structure WordSet where
  mLine : List Nat
  mWords : List (List Nat × Nat)
  mRunes : List (Nat × Nat)
deriving DecidableEq

/-- `WordSet::WordSet`: lowercase in place, collapse in place (keeping the
stale tail of the buffer), then count words and count every character of the
resulting `mLine`. -/
def WordSet.ofLine (wordSetLine : List Nat) : WordSet :=
  let l := collapseLine (wordSetLine.map toLowerByte)
  ⟨l, buildTable (collectWords [] l), buildTable l⟩

/-- One iteration of the `itemsFound` / `itemsPossible` loop of the private
table-level `WordSet::measureContainment` template. -/
def containStep {α : Type} [DecidableEq α]
    (t1 : List (α × Nat)) (fp : ℚ × ℚ) (item : α × Nat) : ℚ × ℚ :=
  match tableFind t1 item.1 with
  | some c1 =>
    if item.2 ≤ c1 then (fp.1 + (item.2 : ℚ), fp.2 + (c1 : ℚ))
    else (fp.1 + (c1 : ℚ), fp.2 + (item.2 : ℚ))
  | none => (fp.1 - (item.2 : ℚ), fp.2 + (item.2 : ℚ))

/-- The private table-level `WordSet::measureContainment` template: the
`itemsFound / itemsPossible` fold, with the `t1 != t2` early skip (on equal
tables the loop is skipped and the result is `1 / 1`). -/
def measureContainmentTable {α : Type} [DecidableEq α]
    (t1 t2 : List (α × Nat)) : ℚ :=
  let fp :=
    if tableEq t1 t2 then ((1 : ℚ), (1 : ℚ))
    else t2.foldl (containStep t1) ((1 : ℚ), (1 : ℚ))
  fp.1 / fp.2

/-- The run of positionally equal characters extended by the inner `while` of
`WordSet::countShared` starting at a pair of suffixes. -/
def runLen : List Nat → List Nat → Nat
  | x :: xs, y :: ys => if x = y then runLen xs ys + 1 else 0
  | _, _ => 0

/-- `WordSet::countShared`: brute-force maximum of `runLen` over every pair of
start offsets. -/
def countShared (a b : List Nat) : Nat :=
  (List.range a.length).foldl (fun longest i =>
    (List.range b.length).foldl (fun longest j =>
      let length := runLen (a.drop i) (b.drop j)
      if longest < length then length else longest) longest) 0

/-- `WordSet::measureShared` on two strings.  When both strings are empty the
C++ expression is `0.0 / 0.0`, i.e. NaN, modelled as `none`. -/
def measureShared (a b : List Nat) : Option ℚ :=
  if a.length + b.length = 0 then none
  else some ((countShared a b : ℚ) * 2 / ((a.length : ℚ) + (b.length : ℚ)))

/-- One iteration of the `bestShared` loop of `WordSet::measureShared` on a
word table and a string.  A NaN comparison is false, so a NaN candidate never
replaces `bestShared`. -/
def sharedBestStep (b : List Nat) (bestShared : ℚ) (pair : List Nat × Nat) : ℚ :=
  match measureShared pair.1 b with
  | none => bestShared
  | some shared => if bestShared < shared then shared else bestShared

/-- `WordSet::measureShared` on a word table and a string: best match over
the words of the table. -/
def measureSharedBest (a : List (List Nat × Nat)) (b : List Nat) : ℚ :=
  a.foldl (sharedBestStep b) 0

/-- One iteration of the `measurementSum` loop of `WordSet::measureShared` on
two word tables. -/
def sharedSumStep (a : List (List Nat × Nat)) (sum : ℚ) (pair : List Nat × Nat) : ℚ :=
  sum + measureSharedBest a pair.1

/-- `WordSet::measureShared` on two word tables: average, over the words of
the second table, of the best match in the first table.  When the second table is
empty the C++ expression is `0.0 / 0.0`, i.e. NaN, modelled as `none`. -/
def measureSharedWords (a b : List (List Nat × Nat)) : Option ℚ :=
  if b.length = 0 then none
  else some ((b.foldl (sharedSumStep a) 0) / (b.length : ℚ))

/-- The public `WordSet::measureContainment`: exact-line short-circuit, then
the average of the four metrics.  If either shared-sequence metric is NaN the
sum, and hence the returned score, is NaN. -/
def WordSet.measureContainment (w other : WordSet) : Option ℚ :=
  if w.mLine = other.mLine then some 1
  else
    let words := measureContainmentTable w.mWords other.mWords
    let runes := measureContainmentTable w.mRunes other.mRunes
    match measureShared w.mLine other.mLine,
      measureSharedWords w.mWords other.mWords with
    | some fullVal, some wordVal =>
      some ((words + runes + (fullVal * 2 - 1) + (wordVal * 2 - 1)) / 4)
    | _, _ => none

/-- The `Document` class (the source spells the member `mNonEmtpyLines`). -/
structure Document where
  mNonEmtpyLines : List (Nat × WordSet)
deriving DecidableEq

/-- `Document::Document`: keep the non-empty raw lines with their original
0-based indices, in order. -/
def Document.ofLines (documentLines : List (List Nat)) : Document :=
  ⟨(documentLines.enum.filter (fun p => !p.2.isEmpty)).map
    (fun p => (p.1, WordSet.ofLine p.2))⟩

/-- The scanning loop of `Document::fuzzyFind`: a score of exactly 1 returns
the line of that entry at once; a strictly greater score replaces the best;
a NaN score compares false both against 1 and against the running best. -/
def fuzzyFindLoop (wordSet : WordSet) :
    List (Nat × WordSet) → Nat → ℚ → Nat
  | [], bestLine, _ => bestLine
  | line :: rest, bestLine, bestScore =>
    match line.2.measureContainment wordSet with
    | none => fuzzyFindLoop wordSet rest bestLine bestScore
    | some score =>
      if score = 1 then line.1
      else if bestScore < score then fuzzyFindLoop wordSet rest line.1 score
      else fuzzyFindLoop wordSet rest bestLine bestScore

/-- `Document::fuzzyFind`: scan from `bestLine = 0`, `bestScore = -1.0`. -/
def Document.fuzzyFind (d : Document) (wordSet : WordSet) : Nat :=
  fuzzyFindLoop wordSet d.mNonEmtpyLines 0 (-1)

/-- Modelled from the spec wording for the refinement claim: the reference
containment algorithm of the spec (`found = 1`, `possible = 1`; a found item
adds the smaller count to `found` and the larger to `possible`; a missing item
subtracts its count from `found` and adds it to `possible`), with no early
equality skip. -/
def specStep {α : Type} [DecidableEq α]
    (A : List (α × Nat)) (fp : ℚ × ℚ) (item : α × Nat) : ℚ × ℚ :=
  match tableFind A item.1 with
  | some cA =>
    (fp.1 + ((min item.2 cA : Nat) : ℚ), fp.2 + ((max item.2 cA : Nat) : ℚ))
  | none => (fp.1 - (item.2 : ℚ), fp.2 + (item.2 : ℚ))

/-- Modelled from the spec wording: the reference containment metric is the
fold of `specStep` from `(1, 1)`, returning `found / possible`. -/
def specContainment {α : Type} [DecidableEq α]
    (A B : List (α × Nat)) : ℚ :=
  let fp := B.foldl (specStep A) ((1 : ℚ), (1 : ℚ))
  fp.1 / fp.2

/-- Spec-side description of a canonical line: the single-space join of a list
of words. -/
def joinWords : List (List Nat) → List Nat
  | [] => []
  | [w] => w
  | w :: ws => w ++ 32 :: joinWords ws

/-! ### Helper lemmas -/

theorem runLen_comm : ∀ a b : List Nat, runLen a b = runLen b a := by
  intro a
  induction a with
  | nil => intro b; cases b <;> simp [runLen]
  | cons x xs ih =>
    intro b
    cases b with
    | nil => simp [runLen]
    | cons y ys =>
      simp only [runLen, ih ys]
      rcases eq_or_ne x y with h | h
      · simp [h]
      · simp [h, h.symm]

theorem runLen_le_left : ∀ a b : List Nat, runLen a b ≤ a.length := by
  intro a
  induction a with
  | nil => intro b; cases b <;> simp [runLen]
  | cons x xs ih =>
    intro b
    cases b with
    | nil => simp [runLen]
    | cons y ys =>
      simp only [runLen, List.length_cons]
      split
      · exact Nat.succ_le_succ (ih ys)
      · omega

theorem runLen_le_right (a b : List Nat) : runLen a b ≤ b.length := by
  rw [runLen_comm]; exact runLen_le_left b a

theorem pickFold_le {α : Type} (f : α → Nat) (l : List α) :
    ∀ init M : Nat, init ≤ M → (∀ x ∈ l, f x ≤ M) →
    List.foldl (fun acc x => if acc < f x then f x else acc) init l ≤ M := by
  induction l with
  | nil => intro init M h0 _; simpa using h0
  | cons x xs ih =>
    intro init M h0 h1
    simp only [List.foldl_cons]
    apply ih
    · by_cases hx : init < f x
      · simpa [hx] using h1 x (by simp)
      · simpa [hx] using h0
    · intro y hy; exact h1 y (by simp [hy])

theorem le_pickFold {α : Type} (f : α → Nat) (l : List α) :
    ∀ init : Nat,
    init ≤ List.foldl (fun acc x => if acc < f x then f x else acc) init l := by
  induction l with
  | nil => intro init; simp
  | cons x xs ih =>
    intro init
    simp only [List.foldl_cons]
    refine le_trans ?_ (ih _)
    by_cases hx : init < f x
    · simp only [if_pos hx]; omega
    · simp [hx]

theorem pickFold_cases {α : Type} (f : α → Nat) (l : List α) :
    ∀ init : Nat,
    List.foldl (fun acc x => if acc < f x then f x else acc) init l = init ∨
    ∃ x ∈ l, List.foldl (fun acc x => if acc < f x then f x else acc) init l = f x := by
  induction l with
  | nil => intro init; left; simp
  | cons x xs ih =>
    intro init
    simp only [List.foldl_cons]
    rcases ih (if init < f x then f x else init) with h | ⟨y, hy, h⟩
    · by_cases hx : init < f x
      · right; exact ⟨x, by simp, by simpa [hx] using h⟩
      · left; simpa [hx] using h
    · right; exact ⟨y, by simp [hy], h⟩

theorem pickFold_ge {α : Type} (f : α → Nat) (l : List α) :
    ∀ init : Nat, ∀ x ∈ l,
    f x ≤ List.foldl (fun acc x => if acc < f x then f x else acc) init l := by
  induction l with
  | nil => intro _ x hx; simp at hx
  | cons y ys ih =>
    intro init x hx
    simp only [List.foldl_cons]
    rcases List.mem_cons.mp hx with rfl | hx
    · refine le_trans ?_ (le_pickFold f ys _)
      by_cases hy : init < f x
      · simp [hy]
      · simp only [if_neg hy]; omega
    · exact ih _ x hx

theorem pick2_le {α β : Type} (g : α → β → Nat) (l2 : List β) (l1 : List α) :
    ∀ init M : Nat, init ≤ M → (∀ i ∈ l1, ∀ j ∈ l2, g i j ≤ M) →
    List.foldl (fun acc i =>
      List.foldl (fun acc2 j => if acc2 < g i j then g i j else acc2) acc l2)
      init l1 ≤ M := by
  induction l1 with
  | nil => intro init M h0 _; simpa using h0
  | cons i is ih =>
    intro init M h0 h1
    simp only [List.foldl_cons]
    apply ih
    · exact pickFold_le (g i) l2 init M h0 (h1 i (by simp))
    · intro x hx j hj; exact h1 x (by simp [hx]) j hj

theorem le_pick2 {α β : Type} (g : α → β → Nat) (l2 : List β) (l1 : List α) :
    ∀ init : Nat,
    init ≤ List.foldl (fun acc i =>
      List.foldl (fun acc2 j => if acc2 < g i j then g i j else acc2) acc l2)
      init l1 := by
  induction l1 with
  | nil => intro init; simp
  | cons i is ih =>
    intro init
    simp only [List.foldl_cons]
    exact le_trans (le_pickFold (g i) l2 init) (ih _)

theorem pick2_cases {α β : Type} (g : α → β → Nat) (l2 : List β) (l1 : List α) :
    ∀ init : Nat,
    List.foldl (fun acc i =>
      List.foldl (fun acc2 j => if acc2 < g i j then g i j else acc2) acc l2)
      init l1 = init ∨
    ∃ i ∈ l1, ∃ j ∈ l2,
      List.foldl (fun acc i =>
        List.foldl (fun acc2 j => if acc2 < g i j then g i j else acc2) acc l2)
        init l1 = g i j := by
  induction l1 with
  | nil => intro init; left; simp
  | cons i is ih =>
    intro init
    simp only [List.foldl_cons]
    rcases ih (List.foldl
        (fun acc2 j => if acc2 < g i j then g i j else acc2) init l2) with
      h | ⟨x, hx, j, hj, h⟩
    · rcases pickFold_cases (g i) l2 init with h2 | ⟨j, hj, h2⟩
      · left; rw [h, h2]
      · right; exact ⟨i, by simp, j, hj, by rw [h, h2]⟩
    · right; exact ⟨x, by simp [hx], j, hj, h⟩

theorem pick2_ge {α β : Type} (g : α → β → Nat) (l2 : List β) (l1 : List α) :
    ∀ init : Nat, ∀ i ∈ l1, ∀ j ∈ l2,
    g i j ≤ List.foldl (fun acc i =>
      List.foldl (fun acc2 j => if acc2 < g i j then g i j else acc2) acc l2)
      init l1 := by
  induction l1 with
  | nil => intro _ i hi; simp at hi
  | cons x xs ih =>
    intro init i hi j hj
    simp only [List.foldl_cons]
    rcases List.mem_cons.mp hi with rfl | hi
    · exact le_trans (pickFold_ge (g i) l2 init j hj)
        (le_pick2 g l2 xs _)
    · exact ih _ i hi j hj

theorem countShared_def (a b : List Nat) :
    countShared a b =
    List.foldl (fun acc i =>
      List.foldl (fun acc2 j =>
        if acc2 < runLen (a.drop i) (b.drop j) then runLen (a.drop i) (b.drop j)
        else acc2) acc (List.range b.length)) 0 (List.range a.length) := rfl

theorem countShared_cases (a b : List Nat) :
    countShared a b = 0 ∨
    ∃ i < a.length, ∃ j < b.length,
      countShared a b = runLen (a.drop i) (b.drop j) := by
  rw [countShared_def]
  rcases pick2_cases (fun i j => runLen (a.drop i) (b.drop j))
      (List.range b.length) (List.range a.length) 0 with h | ⟨i, hi, j, hj, h⟩
  · left; exact h
  · right
    exact ⟨i, List.mem_range.mp hi, j, List.mem_range.mp hj, h⟩

theorem runLen_le_countShared (a b : List Nat) {i j : Nat}
    (hi : i < a.length) (hj : j < b.length) :
    runLen (a.drop i) (b.drop j) ≤ countShared a b := by
  rw [countShared_def]
  exact pick2_ge (fun i j => runLen (a.drop i) (b.drop j))
    (List.range b.length) (List.range a.length) 0
    i (List.mem_range.mpr hi) j (List.mem_range.mpr hj)

theorem countShared_le_left (a b : List Nat) : countShared a b ≤ a.length := by
  rcases countShared_cases a b with h | ⟨i, hi, j, hj, h⟩
  · omega
  · rw [h]
    refine le_trans (runLen_le_left _ _) ?_
    simp [List.length_drop]

theorem countShared_le_right (a b : List Nat) : countShared a b ≤ b.length := by
  rcases countShared_cases a b with h | ⟨i, hi, j, hj, h⟩
  · omega
  · rw [h]
    refine le_trans (runLen_le_right _ _) ?_
    simp [List.length_drop]

theorem countShared_le_comm (a b : List Nat) :
    countShared a b ≤ countShared b a := by
  rcases countShared_cases a b with h | ⟨i, hi, j, hj, h⟩
  · omega
  · rw [h, runLen_comm]
    exact runLen_le_countShared b a hj hi

theorem measureShared_bounds {a b : List Nat} {q : ℚ}
    (h : measureShared a b = some q) : 0 ≤ q ∧ q ≤ 1 := by
  unfold measureShared at h
  split at h
  · simp at h
  · rename_i hne
    rw [Option.some_inj] at h
    subst h
    have hpos : (0 : ℚ) < (a.length : ℚ) + (b.length : ℚ) := by
      have : 0 < a.length + b.length := Nat.pos_of_ne_zero hne
      exact_mod_cast this
    constructor
    · apply div_nonneg _ (le_of_lt hpos)
      positivity
    · rw [div_le_one hpos]
      have h2 : countShared a b * 2 ≤ a.length + b.length := by
        have := countShared_le_left a b
        have := countShared_le_right a b
        omega
      exact_mod_cast h2

theorem measureSharedBest_fold_bounds (b : List Nat) :
    ∀ (t : List (List Nat × Nat)) (init : ℚ), 0 ≤ init → init ≤ 1 →
    0 ≤ t.foldl (sharedBestStep b) init ∧ t.foldl (sharedBestStep b) init ≤ 1 := by
  intro t
  induction t with
  | nil => intro init h0 h1; simpa using ⟨h0, h1⟩
  | cons p ps ih =>
    intro init h0 h1
    simp only [List.foldl_cons]
    apply ih
    · unfold sharedBestStep
      rcases hm : measureShared p.1 b with _ | s
      · simpa using h0
      · have hb := measureShared_bounds hm
        simp only
        split <;> linarith [hb.1]
    · unfold sharedBestStep
      rcases hm : measureShared p.1 b with _ | s
      · simpa using h1
      · have hb := measureShared_bounds hm
        simp only
        split <;> linarith [hb.2]

theorem measureSharedBest_bounds (a : List (List Nat × Nat)) (b : List Nat) :
    0 ≤ measureSharedBest a b ∧ measureSharedBest a b ≤ 1 :=
  measureSharedBest_fold_bounds b a 0 le_rfl (by norm_num)

theorem sharedSum_fold_bounds (a : List (List Nat × Nat)) :
    ∀ (l : List (List Nat × Nat)) (init : ℚ), 0 ≤ init →
    0 ≤ l.foldl (sharedSumStep a) init ∧
    l.foldl (sharedSumStep a) init ≤ init + l.length := by
  intro l
  induction l with
  | nil => intro init h0; simpa using h0
  | cons p ps ih =>
    intro init h0
    simp only [List.foldl_cons, List.length_cons]
    have hb := measureSharedBest_bounds a p.1
    have hstep : 0 ≤ sharedSumStep a init p := by
      unfold sharedSumStep; linarith [hb.1]
    refine ⟨(ih _ hstep).1, ?_⟩
    refine le_trans (ih _ hstep).2 ?_
    unfold sharedSumStep
    push_cast
    linarith [hb.2]

theorem measureSharedWords_bounds {a b : List (List Nat × Nat)} {q : ℚ}
    (h : measureSharedWords a b = some q) : 0 ≤ q ∧ q ≤ 1 := by
  unfold measureSharedWords at h
  split at h
  · simp at h
  · rename_i hne
    rw [Option.some_inj] at h
    subst h
    have hpos : (0 : ℚ) < (b.length : ℚ) := by
      have : 0 < b.length := Nat.pos_of_ne_zero hne
      exact_mod_cast this
    have hs := sharedSum_fold_bounds a b 0 le_rfl
    constructor
    · exact div_nonneg hs.1 (le_of_lt hpos)
    · rw [div_le_one hpos]
      linarith [hs.2]

theorem containFold_inv {α : Type} [DecidableEq α] (t1 : List (α × Nat)) :
    ∀ (l : List (α × Nat)) (fp : ℚ × ℚ), 0 < fp.2 → 2 ≤ fp.1 + fp.2 →
    fp.1 ≤ fp.2 →
    0 < (l.foldl (containStep t1) fp).2 ∧
    2 ≤ (l.foldl (containStep t1) fp).1 + (l.foldl (containStep t1) fp).2 ∧
    (l.foldl (containStep t1) fp).1 ≤ (l.foldl (containStep t1) fp).2 := by
  intro l
  induction l with
  | nil => intro fp h1 h2 h3; simpa using ⟨h1, h2, h3⟩
  | cons item rest ih =>
    intro fp h1 h2 h3
    simp only [List.foldl_cons]
    have hstep : 0 < (containStep t1 fp item).2 ∧
        2 ≤ (containStep t1 fp item).1 + (containStep t1 fp item).2 ∧
        (containStep t1 fp item).1 ≤ (containStep t1 fp item).2 := by
      unfold containStep
      have hc2 : (0 : ℚ) ≤ (item.2 : ℚ) := Nat.cast_nonneg _
      rcases hf : tableFind t1 item.1 with _ | c1
      · dsimp only
        refine ⟨by linarith, by linarith, by linarith⟩
      · have hc1 : (0 : ℚ) ≤ (c1 : ℚ) := Nat.cast_nonneg _
        dsimp only
        split
        · rename_i hle
          have : (item.2 : ℚ) ≤ (c1 : ℚ) := by exact_mod_cast hle
          exact ⟨by dsimp only; linarith, by dsimp only; linarith,
            by dsimp only; linarith⟩
        · rename_i hle
          have : (c1 : ℚ) ≤ (item.2 : ℚ) := by
            have h4 : c1 ≤ item.2 := by omega
            exact_mod_cast h4
          exact ⟨by dsimp only; linarith, by dsimp only; linarith,
            by dsimp only; linarith⟩
    exact ih _ hstep.1 hstep.2.1 hstep.2.2

theorem measureContainmentTable_bounds {α : Type} [DecidableEq α]
    (t1 t2 : List (α × Nat)) :
    -1 < measureContainmentTable t1 t2 ∧ measureContainmentTable t1 t2 ≤ 1 := by
  unfold measureContainmentTable
  by_cases h : tableEq t1 t2
  · simp [h]
  · simp only [h, if_false, Bool.false_eq_true]
    have hinv := containFold_inv t1 t2 (1, 1) (by norm_num) (by norm_num)
      (by norm_num)
    constructor
    · rw [lt_div_iff₀ hinv.1]
      linarith [hinv.2.1]
    · rw [div_le_one hinv.1]
      exact hinv.2.2

theorem measureContainment_bounds {w1 w2 : WordSet} {q : ℚ}
    (h : w1.measureContainment w2 = some q) : -1 < q ∧ q ≤ 1 := by
  unfold WordSet.measureContainment at h
  split at h
  · rw [Option.some_inj] at h
    subst h
    norm_num
  · rcases hfs : measureShared w1.mLine w2.mLine with _ | fs <;>
      rcases hws : measureSharedWords w1.mWords w2.mWords with _ | ws <;>
      simp only [hfs, hws] at h
    all_goals try exact Option.noConfusion h
    rw [Option.some_inj] at h
    subst h
    have hw := measureContainmentTable_bounds w1.mWords w2.mWords
    have hr := measureContainmentTable_bounds w1.mRunes w2.mRunes
    have hf := measureShared_bounds hfs
    have hv := measureSharedWords_bounds hws
    constructor
    · linarith [hw.1, hr.1, hf.1, hv.1]
    · linarith [hw.2, hr.2, hf.2, hv.2]

theorem measureContainment_isSome (w other : WordSet)
    (h : other.mWords ≠ []) : ∃ q, w.measureContainment other = some q := by
  unfold WordSet.measureContainment
  split
  · exact ⟨1, rfl⟩
  · rename_i hne
    have h1 : ¬(w.mLine.length + other.mLine.length = 0) := by
      intro h0
      apply hne
      have ha : w.mLine = [] := List.length_eq_zero.mp (by omega)
      have hb : other.mLine = [] := List.length_eq_zero.mp (by omega)
      rw [ha, hb]
    have h2 : ¬(other.mWords.length = 0) := by
      simpa [List.length_eq_zero] using h
    simp only [measureShared, measureSharedWords, h1, h2, if_false]
    exact ⟨_, rfl⟩

theorem fuzzyFindLoop_nil (q : WordSet) (bl : Nat) (bs : ℚ) :
    fuzzyFindLoop q [] bl bs = bl := rfl

theorem fuzzyFindLoop_cons (q : WordSet) (e : Nat × WordSet)
    (rest : List (Nat × WordSet)) (bl : Nat) (bs : ℚ) :
    fuzzyFindLoop q (e :: rest) bl bs =
    match e.2.measureContainment q with
    | none => fuzzyFindLoop q rest bl bs
    | some score =>
      if score = 1 then e.1
      else if bs < score then fuzzyFindLoop q rest e.1 score
      else fuzzyFindLoop q rest bl bs := rfl

theorem fuzzyFindLoop_mem (q : WordSet) (S : Nat → Prop) :
    ∀ (es : List (Nat × WordSet)) (bl : Nat) (bs : ℚ), S bl →
    (∀ e ∈ es, S e.1) → S (fuzzyFindLoop q es bl bs) := by
  intro es
  induction es with
  | nil => intro bl bs h _; simpa [fuzzyFindLoop_nil] using h
  | cons e rest ih =>
    intro bl bs hbl hes
    rw [fuzzyFindLoop_cons]
    rcases hm : e.2.measureContainment q with _ | s
    · simp only [hm]
      exact ih bl bs hbl (fun x hx => hes x (List.mem_cons_of_mem _ hx))
    · simp only [hm]
      by_cases h1 : s = 1
      · simp only [if_pos h1]
        exact hes e (List.mem_cons_self _ _)
      · rw [if_neg h1]
        by_cases h2 : bs < s
        · rw [if_pos h2]
          exact ih e.1 s (hes e (List.mem_cons_self _ _))
            (fun x hx => hes x (List.mem_cons_of_mem _ hx))
        · rw [if_neg h2]
          exact ih bl bs hbl (fun x hx => hes x (List.mem_cons_of_mem _ hx))

theorem fuzzyFindLoop_shortcircuit (q : WordSet) (e : Nat × WordSet)
    (post : List (Nat × WordSet)) :
    ∀ (pre : List (Nat × WordSet)) (bl : Nat) (bs : ℚ),
    (∀ x ∈ pre, x.2.measureContainment q ≠ some 1) →
    e.2.measureContainment q = some 1 →
    fuzzyFindLoop q (pre ++ e :: post) bl bs = e.1 := by
  intro pre
  induction pre with
  | nil =>
    intro bl bs _ he
    rw [List.nil_append, fuzzyFindLoop_cons]
    simp [he]
  | cons p ps ih =>
    intro bl bs hpre he
    rw [List.cons_append, fuzzyFindLoop_cons]
    rcases hm : p.2.measureContainment q with _ | s
    · simp only [hm]
      exact ih bl bs (fun x hx => hpre x (List.mem_cons_of_mem _ hx)) he
    · have hs1 : s ≠ 1 := by
        intro h1
        exact hpre p (List.mem_cons_self _ _) (by rw [hm, h1])
      simp only [hm]
      rw [if_neg hs1]
      by_cases h2 : bs < s
      · rw [if_pos h2]
        exact ih p.1 s (fun x hx => hpre x (List.mem_cons_of_mem _ hx)) he
      · rw [if_neg h2]
        exact ih bl bs (fun x hx => hpre x (List.mem_cons_of_mem _ hx)) he

theorem fuzzyFindLoop_best (q : WordSet) :
    ∀ (es : List (Nat × WordSet)) (bl : Nat) (bs : ℚ),
    (∀ e ∈ es, e.2.measureContainment q ≠ some 1) →
    (fuzzyFindLoop q es bl bs = bl ∧
      ∀ e ∈ es, ∀ m : ℚ, e.2.measureContainment q = some m → m ≤ bs) ∨
    (∃ pre e post, ∃ m : ℚ, es = pre ++ e :: post ∧
      fuzzyFindLoop q es bl bs = e.1 ∧
      e.2.measureContainment q = some m ∧ bs < m ∧
      (∀ x ∈ es, ∀ m2 : ℚ, x.2.measureContainment q = some m2 → m2 ≤ m) ∧
      (∀ x ∈ pre, ∀ m2 : ℚ, x.2.measureContainment q = some m2 → m2 < m)) := by
  intro es
  induction es with
  | nil =>
    intro bl bs _
    left
    exact ⟨rfl, by simp⟩
  | cons e rest ih =>
    intro bl bs hno1
    have hrest : ∀ x ∈ rest, x.2.measureContainment q ≠ some 1 :=
      fun x hx => hno1 x (List.mem_cons_of_mem _ hx)
    rcases hm : e.2.measureContainment q with _ | s
    · have hloop : fuzzyFindLoop q (e :: rest) bl bs =
          fuzzyFindLoop q rest bl bs := by
        rw [fuzzyFindLoop_cons, hm]
      rcases ih bl bs hrest with ⟨hr, hb⟩ |
        ⟨pre, x, post, m, heq, hres, hsc, hbs, hall, hpre⟩
      · left
        refine ⟨by rw [hloop, hr], ?_⟩
        intro x hx m hmx
        rcases List.mem_cons.mp hx with rfl | hx
        · rw [hm] at hmx; exact Option.noConfusion hmx
        · exact hb x hx m hmx
      · right
        refine ⟨e :: pre, x, post, m, by rw [heq, List.cons_append],
          by rw [hloop, hres], hsc, hbs, ?_, ?_⟩
        · intro y hy m2 hm2
          rcases List.mem_cons.mp hy with rfl | hy
          · rw [hm] at hm2; exact Option.noConfusion hm2
          · exact hall y hy m2 hm2
        · intro y hy m2 hm2
          rcases List.mem_cons.mp hy with rfl | hy
          · rw [hm] at hm2; exact Option.noConfusion hm2
          · exact hpre y hy m2 hm2
    · have hs1 : s ≠ 1 := by
        intro h1
        exact hno1 e (List.mem_cons_self _ _) (by rw [hm, h1])
      by_cases hlt : bs < s
      · have hloop : fuzzyFindLoop q (e :: rest) bl bs =
            fuzzyFindLoop q rest e.1 s := by
          rw [fuzzyFindLoop_cons, hm]
          simp only [if_neg hs1, if_pos hlt]
        rcases ih e.1 s hrest with ⟨hr, hb⟩ |
          ⟨pre, x, post, m, heq, hres, hsc, hbs, hall, hpre⟩
        · right
          refine ⟨[], e, rest, s, by simp, by rw [hloop, hr], hm, hlt, ?_,
            by simp⟩
          intro x hx m2 hm2
          rcases List.mem_cons.mp hx with rfl | hx
          · rw [hm, Option.some_inj] at hm2
            exact le_of_eq hm2.symm
          · exact hb x hx m2 hm2
        · right
          refine ⟨e :: pre, x, post, m, by rw [heq, List.cons_append],
            by rw [hloop, hres], hsc, lt_trans hlt hbs, ?_, ?_⟩
          · intro y hy m2 hm2
            rcases List.mem_cons.mp hy with rfl | hy
            · rw [hm, Option.some_inj] at hm2
              rw [← hm2]
              exact le_of_lt hbs
            · exact hall y hy m2 hm2
          · intro y hy m2 hm2
            rcases List.mem_cons.mp hy with rfl | hy
            · rw [hm, Option.some_inj] at hm2
              rw [← hm2]
              exact hbs
            · exact hpre y hy m2 hm2
      · have hle : s ≤ bs := le_of_not_lt hlt
        have hloop : fuzzyFindLoop q (e :: rest) bl bs =
            fuzzyFindLoop q rest bl bs := by
          rw [fuzzyFindLoop_cons, hm]
          simp only [if_neg hs1, if_neg hlt]
        rcases ih bl bs hrest with ⟨hr, hb⟩ |
          ⟨pre, x, post, m, heq, hres, hsc, hbs, hall, hpre⟩
        · left
          refine ⟨by rw [hloop, hr], ?_⟩
          intro x hx m2 hm2
          rcases List.mem_cons.mp hx with rfl | hx
          · rw [hm, Option.some_inj] at hm2
            rw [← hm2]
            exact hle
          · exact hb x hx m2 hm2
        · right
          refine ⟨e :: pre, x, post, m, by rw [heq, List.cons_append],
            by rw [hloop, hres], hsc, hbs, ?_, ?_⟩
          · intro y hy m2 hm2
            rcases List.mem_cons.mp hy with rfl | hy
            · rw [hm, Option.some_inj] at hm2
              linarith
            · exact hall y hy m2 hm2
          · intro y hy m2 hm2
            rcases List.mem_cons.mp hy with rfl | hy
            · rw [hm, Option.some_inj] at hm2
              linarith
            · exact hpre y hy m2 hm2

theorem containStep_eq_specStep {α : Type} [DecidableEq α]
    (t1 : List (α × Nat)) (fp : ℚ × ℚ) (item : α × Nat) :
    containStep t1 fp item = specStep t1 fp item := by
  unfold containStep specStep
  rcases tableFind t1 item.1 with _ | c1
  · rfl
  · simp only
    by_cases h : item.2 ≤ c1
    · rw [if_pos h, min_eq_left h, max_eq_right h]
    · have h2 : c1 ≤ item.2 := by omega
      rw [if_neg h, min_eq_right h2, max_eq_left h2]

theorem tableFind_cons {α : Type} [DecidableEq α] (p : α × Nat)
    (ps : List (α × Nat)) (k : α) :
    tableFind (p :: ps) k = if p.1 = k then some p.2 else tableFind ps k := by
  unfold tableFind
  rcases eq_or_ne p.1 k with h | h
  · rw [List.find?_cons_of_pos _ (by simp [h]), if_pos h]
  · rw [List.find?_cons_of_neg _ (by simp [h]), if_neg h]

theorem tableFind_eq_some_of_mem {α : Type} [DecidableEq α] :
    ∀ {t : List (α × Nat)}, (t.map Prod.fst).Nodup → ∀ {k : α} {v : Nat},
    (k, v) ∈ t → tableFind t k = some v := by
  intro t
  induction t with
  | nil => intro _ k v h; simp at h
  | cons p ps ih =>
    intro hnd k v h
    rw [List.map_cons, List.nodup_cons] at hnd
    rw [tableFind_cons]
    rcases List.mem_cons.mp h with rfl | h
    · rw [if_pos rfl]
    · have hne : p.1 ≠ k := by
        intro hEq
        exact hnd.1 (hEq ▸ List.mem_map_of_mem Prod.fst h)
      rw [if_neg hne]
      exact ih hnd.2 h

theorem mem_of_tableFind_eq_some {α : Type} [DecidableEq α] :
    ∀ {t : List (α × Nat)} {k : α} {v : Nat},
    tableFind t k = some v → (k, v) ∈ t := by
  intro t
  induction t with
  | nil => intro k v h; unfold tableFind at h; simp at h
  | cons p ps ih =>
    intro k v h
    rw [tableFind_cons] at h
    split at h
    · rename_i hk
      rw [Option.some_inj] at h
      rcases p with ⟨pk, pv⟩
      simp only at hk h
      subst hk
      subst h
      exact List.mem_cons_self _ _
    · exact List.mem_cons_of_mem _ (ih h)

theorem tableEq_lookup {α : Type} [DecidableEq α] {t1 t2 : List (α × Nat)}
    (h1 : (t1.map Prod.fst).Nodup) (h2 : (t2.map Prod.fst).Nodup)
    (he : tableEq t1 t2 = true) :
    ∀ item ∈ t2, tableFind t1 item.1 = some item.2 := by
  unfold tableEq at he
  rw [Bool.and_eq_true, beq_iff_eq, List.all_eq_true] at he
  obtain ⟨hlen, hfind⟩ := he
  have hsub : t1.map Prod.fst ⊆ t2.map Prod.fst := by
    intro k hk
    obtain ⟨p, hp, hpk⟩ := List.mem_map.mp hk
    have hf := hfind p hp
    rw [beq_iff_eq] at hf
    have := List.mem_map_of_mem Prod.fst (mem_of_tableFind_eq_some hf)
    simpa [hpk] using this
  have hperm : List.Perm (t1.map Prod.fst) (t2.map Prod.fst) :=
    (h1.subperm hsub).perm_of_length_le (by simp [hlen])
  have hsub2 : t2.map Prod.fst ⊆ t1.map Prod.fst := hperm.symm.subset
  intro item hitem
  obtain ⟨v, hv⟩ : ∃ v, (item.1, v) ∈ t1 := by
    have hk : item.1 ∈ t1.map Prod.fst :=
      hsub2 (List.mem_map_of_mem Prod.fst hitem)
    obtain ⟨p, hp, hpk⟩ := List.mem_map.mp hk
    refine ⟨p.2, ?_⟩
    rcases p with ⟨pk, pv⟩
    simp only at hpk
    subst hpk
    exact hp
  have hfound := hfind (item.1, v) hv
  rw [beq_iff_eq] at hfound
  have hitem2 : tableFind t2 item.1 = some item.2 := by
    rcases item with ⟨ik, iv⟩
    exact tableFind_eq_some_of_mem h2 hitem
  rw [hitem2, Option.some_inj] at hfound
  subst hfound
  exact tableFind_eq_some_of_mem h1 hv

theorem specFold_eq {α : Type} [DecidableEq α] (t1 : List (α × Nat)) :
    ∀ (l : List (α × Nat)) (fp : ℚ × ℚ),
    (∀ item ∈ l, tableFind t1 item.1 = some item.2) →
    (l.foldl (specStep t1) fp).1 - (l.foldl (specStep t1) fp).2 = fp.1 - fp.2 ∧
    fp.2 ≤ (l.foldl (specStep t1) fp).2 := by
  intro l
  induction l with
  | nil => intro fp _; simp
  | cons item rest ih =>
    intro fp hl
    simp only [List.foldl_cons]
    have hi := hl item (List.mem_cons_self _ _)
    have hstep : specStep t1 fp item =
        (fp.1 + (item.2 : ℚ), fp.2 + (item.2 : ℚ)) := by
      unfold specStep
      rw [hi]
      simp
    rw [hstep]
    have hrest := ih (fp.1 + (item.2 : ℚ), fp.2 + (item.2 : ℚ))
      (fun x hx => hl x (List.mem_cons_of_mem _ hx))
    refine ⟨?_, ?_⟩
    · rw [hrest.1]
      dsimp only
      ring
    · refine le_trans ?_ hrest.2
      dsimp only
      have : (0 : ℚ) ≤ (item.2 : ℚ) := Nat.cast_nonneg _
      linarith

theorem collapseWritten_cons (brk : Bool) (c : Nat) (rest : List Nat) :
    collapseWritten brk (c :: rest) =
    if doesBreakWord c then
      (if brk then collapseWritten brk rest else 32 :: collapseWritten true rest)
    else c :: collapseWritten false rest := rfl

theorem collapseWritten_word : ∀ (w : List Nat), w ≠ [] →
    (∀ c ∈ w, doesBreakWord c = false) → ∀ (brk : Bool) (t : List Nat),
    collapseWritten brk (w ++ t) = w ++ collapseWritten false t := by
  intro w
  induction w with
  | nil => intro h; exact absurd rfl h
  | cons c cs ih =>
    intro _ hnb brk t
    have hc : doesBreakWord c = false := hnb c (List.mem_cons_self _ _)
    rw [List.cons_append, collapseWritten_cons]
    simp only [hc, Bool.false_eq_true, if_false]
    rcases eq_or_ne cs [] with rfl | hcs
    · simp
    · rw [ih hcs (fun x hx => hnb x (List.mem_cons_of_mem _ hx)) false t,
        List.cons_append]

theorem collapse_canonical : ∀ ws : List (List Nat),
    (∀ w ∈ ws, w ≠ [] ∧ ∀ c ∈ w, doesBreakWord c = false) →
    collapseWritten true (joinWords ws) = joinWords ws := by
  intro ws
  induction ws with
  | nil => intro _; rfl
  | cons w ws ih =>
    intro h
    have hw := h w (List.mem_cons_self _ _)
    rcases ws with _ | ⟨w2, ws2⟩
    · have h1 := collapseWritten_word w hw.1 hw.2 true []
      simpa [joinWords,
        show collapseWritten false ([] : List Nat) = [] from rfl] using h1
    · rw [show joinWords (w :: w2 :: ws2) = w ++ 32 :: joinWords (w2 :: ws2)
        from rfl]
      rw [collapseWritten_word w hw.1 hw.2 true (32 :: joinWords (w2 :: ws2))]
      congr 1
      rw [collapseWritten_cons]
      have h32 : doesBreakWord 32 = true := rfl
      simp only [h32, if_true, Bool.false_eq_true, if_false]
      rw [ih (fun x hx => h x (List.mem_cons_of_mem _ hx))]

theorem mem_joinWords : ∀ (ws : List (List Nat)) (c : Nat),
    c ∈ joinWords ws → c = 32 ∨ ∃ w ∈ ws, c ∈ w := by
  intro ws
  induction ws with
  | nil => intro c hc; simp [joinWords] at hc
  | cons w ws ih =>
    intro c hc
    rcases ws with _ | ⟨w2, ws2⟩
    · right
      exact ⟨w, List.mem_cons_self _ _, hc⟩
    · rw [show joinWords (w :: w2 :: ws2) = w ++ 32 :: joinWords (w2 :: ws2)
        from rfl] at hc
      rcases List.mem_append.mp hc with hc | hc
      · right; exact ⟨w, List.mem_cons_self _ _, hc⟩
      · rcases List.mem_cons.mp hc with rfl | hc
        · left; rfl
        · rcases ih c hc with h32 | ⟨x, hx, hcx⟩
          · left; exact h32
          · right; exact ⟨x, List.mem_cons_of_mem _ hx, hcx⟩

theorem joinWords_map_toLower (ws : List (List Nat))
    (h : ∀ w ∈ ws, ∀ c ∈ w, toLowerByte c = c) :
    (joinWords ws).map toLowerByte = joinWords ws := by
  have hall : ∀ c ∈ joinWords ws, toLowerByte c = c := by
    intro c hc
    rcases mem_joinWords ws c hc with rfl | ⟨w, hw, hcw⟩
    · rfl
    · exact h w hw c hcw
  calc (joinWords ws).map toLowerByte = (joinWords ws).map id :=
        List.map_congr_left hall
    _ = joinWords ws := List.map_id _

theorem enumFrom_filter_ne : ∀ (lines : List (List Nat)) (n : Nat),
    (∃ l ∈ lines, l ≠ []) →
    (List.enumFrom n lines).filter (fun p => !p.2.isEmpty) ≠ [] := by
  intro lines
  induction lines with
  | nil => intro n h; simp at h
  | cons l ls ih =>
    intro n h
    rw [show List.enumFrom n (l :: ls) = (n, l) :: List.enumFrom (n + 1) ls
      from rfl]
    rcases eq_or_ne l [] with rfl | hl
    · rw [List.filter_cons]
      simp only [List.isEmpty_nil, Bool.not_true, Bool.false_eq_true, if_false]
      obtain ⟨x, hx, hxne⟩ := h
      rcases List.mem_cons.mp hx with rfl | hx
      · exact absurd rfl hxne
      · exact ih (n + 1) ⟨x, hx, hxne⟩
    · rw [List.filter_cons]
      have : l.isEmpty = false := by
        cases l
        · exact absurd rfl hl
        · rfl
      simp only [this, Bool.not_false, if_true]
      exact List.cons_ne_nil _ _

theorem ofLines_ne_nil (lines : List (List Nat))
    (hl : ∃ l ∈ lines, l ≠ []) :
    (Document.ofLines lines).mNonEmtpyLines ≠ [] := by
  unfold Document.ofLines
  simp only
  intro h
  rw [List.map_eq_nil_iff] at h
  exact enumFrom_filter_ne lines 0 hl h

/-! ### Claim theorems -/

/-- Claim C1 (code bug): the claim says the stored canonical text is the
lowercased input with breaking runs collapsed to single spaces and with
leading and trailing breaks removed, so that an all-breaking input yields an
empty text and empty tables.  The code violates this: the collapse loop of
`WordSet::WordSet` never truncates the buffer, so the stale tail of the
original string survives.  For input "a  b" the stored text is "a bb" with a
phantom word "bb"; for the all-breaking input of two spaces the stored text is
the two spaces themselves, with a one-entry word table (the word " ") and a
non-empty character table, instead of the empty text and empty tables the
claim requires. -/
theorem wordSet_construction_c1 :
    (WordSet.ofLine [97, 32, 32, 98]).mLine = [97, 32, 98, 98] ∧
    (WordSet.ofLine [97, 32, 32, 98]).mWords = [([97], 1), ([98, 98], 1)] ∧
    (WordSet.ofLine [32, 32]).mLine = [32, 32] ∧
    (WordSet.ofLine [32, 32]).mWords = [([32], 1)] ∧
    (WordSet.ofLine [32, 32]).mRunes = [(32, 2)] := by
  refine ⟨rfl, rfl, rfl, rfl, rfl⟩

/-- Claim C2 (code bug): the claim says `fuzzyFind` on a document holding zero
non-empty lines surfaces an explicit error and does not silently return the
default line number 0.  The code has no error state at all: the scan loop is
skipped and the default `bestLine = 0` is returned silently, which is exactly
what this evaluation shows. -/
theorem fuzzyFind_empty_doc_c2 :
    Document.fuzzyFind (Document.ofLines [[], []]) (WordSet.ofLine [104, 105]) =
      0 := rfl

/-- Claim C3 (code bug): the claim says the word-shared metric is guarded
against a query with zero words.  The code has no such guard: for the empty
query against the candidate "a" the word-shared average divides by the zero
word count (`0.0 / 0.0`, NaN, modelled as `none`), and the NaN propagates
through the sum so the whole score is NaN rather than a well-defined value. -/
theorem measureContainment_empty_query_c3 :
    WordSet.measureContainment (WordSet.ofLine [97]) (WordSet.ofLine []) =
      none ∧
    measureSharedWords (WordSet.ofLine [97]).mWords
      (WordSet.ofLine []).mWords = none := by
  refine ⟨rfl, rfl⟩

/-- Claim C4 counterexample: the claim as stated, that for every pair of
WordSets the score is a value in the interval from -1 to 1, is false: against
the zero-word query built from the empty line the score of the candidate "bc"
is NaN (`none`), not a value at all. -/
theorem measureContainment_nan_c4 :
    WordSet.measureContainment (WordSet.ofLine [98, 99]) (WordSet.ofLine []) =
      none := rfl

/-- Claim C4 (amended): whenever each metric is defined (not NaN), it lies in
the interval from -1 to 1: both table containment metrics always, the rescaled
full shared-sequence and word shared-sequence metrics whenever they return a
value, and the public score whenever it returns a value. -/
theorem score_components_bounded_c4 (w1 w2 : WordSet) :
    (-1 ≤ measureContainmentTable w1.mWords w2.mWords ∧
      measureContainmentTable w1.mWords w2.mWords ≤ 1) ∧
    (-1 ≤ measureContainmentTable w1.mRunes w2.mRunes ∧
      measureContainmentTable w1.mRunes w2.mRunes ≤ 1) ∧
    (∀ q : ℚ, measureShared w1.mLine w2.mLine = some q →
      -1 ≤ q * 2 - 1 ∧ q * 2 - 1 ≤ 1) ∧
    (∀ q : ℚ, measureSharedWords w1.mWords w2.mWords = some q →
      -1 ≤ q * 2 - 1 ∧ q * 2 - 1 ≤ 1) ∧
    (∀ q : ℚ, w1.measureContainment w2 = some q → -1 ≤ q ∧ q ≤ 1) := by
  refine ⟨?_, ?_, ?_, ?_, ?_⟩
  · have h := measureContainmentTable_bounds w1.mWords w2.mWords
    exact ⟨le_of_lt h.1, h.2⟩
  · have h := measureContainmentTable_bounds w1.mRunes w2.mRunes
    exact ⟨le_of_lt h.1, h.2⟩
  · intro q hq
    have h := measureShared_bounds hq
    constructor <;> linarith [h.1, h.2]
  · intro q hq
    have h := measureSharedWords_bounds hq
    constructor <;> linarith [h.1, h.2]
  · intro q hq
    have h := measureContainment_bounds hq
    exact ⟨le_of_lt h.1, h.2⟩

theorem score_bounded_witness_c4 :
    (-1 ≤ (0 : ℚ) * 2 - 1 ∧ (0 : ℚ) * 2 - 1 ≤ 1) ∧
    (-1 ≤ (1 : ℚ) ∧ (1 : ℚ) ≤ 1) :=
  ⟨(score_components_bounded_c4 (WordSet.ofLine [97])
      (WordSet.ofLine [98])).2.2.1 0 (by
        have hc : countShared [97] [98] = 0 := by decide
        show measureShared [97] [98] = some 0
        norm_num [measureShared, hc]),
   (score_components_bounded_c4 (WordSet.ofLine [97])
      (WordSet.ofLine [97])).2.2.2.2 1 rfl⟩

/-- Claim C5: for any two frequency tables (distinct keys, as an
`unordered_map` guarantees), the table-level containment metric of the code
equals the reference algorithm of the spec: from `found = 1, possible = 1`,
a found item adds the smaller count to `found` and the larger to `possible`,
a missing item subtracts its count from `found` and adds it to `possible`,
returning `found / possible`.  The early equality skip of the code agrees with
the reference fold on equal tables. -/
theorem measureContainmentTable_eq_spec_c5 {α : Type} [DecidableEq α]
    (t1 t2 : List (α × Nat)) (h1 : (t1.map Prod.fst).Nodup)
    (h2 : (t2.map Prod.fst).Nodup) :
    measureContainmentTable t1 t2 = specContainment t1 t2 := by
  by_cases he : tableEq t1 t2 = true
  · simp only [measureContainmentTable, specContainment, he, if_true]
    have hl := tableEq_lookup h1 h2 he
    have hf := specFold_eq t1 t2 ((1 : ℚ), (1 : ℚ)) hl
    have heq : (t2.foldl (specStep t1) ((1 : ℚ), (1 : ℚ))).1 =
        (t2.foldl (specStep t1) ((1 : ℚ), (1 : ℚ))).2 := by
      have h3 := hf.1
      dsimp only at h3
      linarith
    have hpos : (0 : ℚ) < (t2.foldl (specStep t1) ((1 : ℚ), (1 : ℚ))).2 := by
      have h3 := hf.2
      dsimp only at h3
      linarith
    rw [heq, div_self (ne_of_gt hpos)]
    norm_num
  · simp only [measureContainmentTable, specContainment, he, if_false]
    have hfold : t2.foldl (containStep t1) ((1 : ℚ), (1 : ℚ)) =
        t2.foldl (specStep t1) ((1 : ℚ), (1 : ℚ)) :=
      List.foldl_ext (containStep t1) (specStep t1) ((1 : ℚ), (1 : ℚ))
        (fun fp item _ => containStep_eq_specStep t1 fp item)
    rw [hfold]
    simp

theorem table_metric_spec_witness_c5 :
    measureContainmentTable [((0 : Nat), 2)] [((1 : Nat), 1)] =
    specContainment [((0 : Nat), 2)] [((1 : Nat), 1)] :=
  measureContainmentTable_eq_spec_c5 _ _ (by decide) (by decide)

/-- Claim C6 counterexample: the claim as stated, with no restriction on the
query, is false.  Against the zero-word empty query every score is NaN, the
strictly-greater comparison against NaN is always false, and `fuzzyFind` on a
document whose only entry is line 1 (line 0 being empty and skipped) returns
the untouched default 0, which is not the line number of any entry, let alone
of the first entry attaining the maximum score. -/
theorem fuzzyFind_nan_c6 :
    Document.fuzzyFind (Document.ofLines [[], [120]]) (WordSet.ofLine []) = 0 ∧
    (Document.ofLines [[], [120]]).mNonEmtpyLines.map Prod.fst = [1] := by
  refine ⟨rfl, rfl⟩

/-- Claim C6 (amended): provided the query holds at least one word (every
score is then a real value, not NaN), `fuzzyFind` scans the stored entries in
document order, immediately returns the original line number of the first
entry whose score is exactly 1 (whatever follows it is irrelevant), and
otherwise, when the document stores at least one entry, returns the original
line number of the first entry attaining the maximum score, ties won by the
earliest entry because a strictly-greater comparison is used. -/
theorem fuzzyFind_scan_c6 (d : Document) (q : WordSet) (hq : q.mWords ≠ []) :
    (∀ pre e post, d.mNonEmtpyLines = pre ++ e :: post →
      (∀ x ∈ pre, x.2.measureContainment q ≠ some 1) →
      e.2.measureContainment q = some 1 → d.fuzzyFind q = e.1) ∧
    ((∀ e ∈ d.mNonEmtpyLines, e.2.measureContainment q ≠ some 1) →
      d.mNonEmtpyLines ≠ [] →
      ∃ pre e post, ∃ m : ℚ, d.mNonEmtpyLines = pre ++ e :: post ∧
        d.fuzzyFind q = e.1 ∧ e.2.measureContainment q = some m ∧
        (∀ x ∈ d.mNonEmtpyLines, ∀ m2 : ℚ,
          x.2.measureContainment q = some m2 → m2 ≤ m) ∧
        (∀ x ∈ pre, ∀ m2 : ℚ, x.2.measureContainment q = some m2 → m2 < m)) := by
  constructor
  · intro pre e post hdec hpre he
    unfold Document.fuzzyFind
    rw [hdec]
    exact fuzzyFindLoop_shortcircuit q e post pre 0 (-1) hpre he
  · intro hno1 hne
    unfold Document.fuzzyFind
    rcases fuzzyFindLoop_best q d.mNonEmtpyLines 0 (-1) hno1 with ⟨hr, hb⟩ |
      ⟨pre, e, post, m, heq, hres, hsc, hbs, hall, hpre⟩
    · exfalso
      rcases hfirst : d.mNonEmtpyLines with _ | ⟨e, rest⟩
      · exact hne hfirst
      · obtain ⟨s, hs⟩ := measureContainment_isSome e.2 q hq
        have hbound := measureContainment_bounds hs
        have hneg := hb e (by rw [hfirst]; exact List.mem_cons_self _ _) s hs
        linarith [hbound.1]
    · exact ⟨pre, e, post, m, heq, hres, hsc, hall, hpre⟩

theorem fuzzyFind_scan_witness_c6 :
    Document.fuzzyFind (Document.ofLines [[98], [99]]) (WordSet.ofLine [98]) =
      0 :=
  (fuzzyFind_scan_c6 (Document.ofLines [[98], [99]]) (WordSet.ofLine [98])
    (by decide)).1 [] (0, WordSet.ofLine [98]) [(1, WordSet.ofLine [99])]
    (by decide) (by simp) rfl

/-- Claim C7: scoring a profile against one with the same canonical text,
in particular any profile against itself, returns exactly 1 through the
canonical-text equality short-circuit, before any metric is computed; the
empty-text case is included. -/
theorem measureContainment_refl_c7 :
    (∀ s : List Nat,
      (WordSet.ofLine s).measureContainment (WordSet.ofLine s) = some 1) ∧
    (∀ w1 w2 : WordSet, w1.mLine = w2.mLine →
      w1.measureContainment w2 = some 1) := by
  have h2 : ∀ w1 w2 : WordSet, w1.mLine = w2.mLine →
      w1.measureContainment w2 = some 1 := by
    intro w1 w2 h
    unfold WordSet.measureContainment
    rw [if_pos h]
  exact ⟨fun s => h2 _ _ rfl, h2⟩

theorem measureContainment_refl_witness_c7 :
    (WordSet.ofLine [104, 105]).measureContainment
      (WordSet.ofLine [104, 105]) = some 1 :=
  measureContainment_refl_c7.2 _ _ rfl

/-- Claim C8: `countShared` is symmetric in its two arguments: the longest
run of positionally contiguous equal characters over all pairs of start
offsets does not depend on the order of the strings. -/
theorem countShared_comm_c8 (a b : List Nat) :
    countShared a b = countShared b a :=
  le_antisymm (countShared_le_comm a b) (countShared_le_comm b a)

/-- Claim C9: normalization is idempotent: building a `WordSet` from a string
that is already canonical (a single-space join of non-empty words made of
non-breaking characters that lowercasing fixes) stores that string
unchanged. -/
theorem normalization_idempotent_c9 (ws : List (List Nat))
    (h : ∀ w ∈ ws, w ≠ [] ∧
      ∀ c ∈ w, doesBreakWord c = false ∧ toLowerByte c = c) :
    (WordSet.ofLine (joinWords ws)).mLine = joinWords ws := by
  have hmap : (joinWords ws).map toLowerByte = joinWords ws :=
    joinWords_map_toLower ws (fun w hw c hc => ((h w hw).2 c hc).2)
  have hcw : collapseWritten true (joinWords ws) = joinWords ws :=
    collapse_canonical ws
      (fun w hw => ⟨(h w hw).1, fun c hc => ((h w hw).2 c hc).1⟩)
  show collapseLine ((joinWords ws).map toLowerByte) = joinWords ws
  rw [hmap]
  unfold collapseLine
  rw [hcw]
  simp

theorem normalization_idempotent_witness_c9 :
    (WordSet.ofLine (joinWords [[97], [98]])).mLine = joinWords [[97], [98]] :=
  normalization_idempotent_c9 [[97], [98]] (by decide)

/-- Claim C10: with a document built from at least one non-empty raw line and
a query holding at least one word, `fuzzyFind` returns the original line
number of one of the stored non-empty-line entries — never the index of a
skipped empty line and never a number outside the stored entries. -/
theorem fuzzyFind_returns_entry_c10 (lines : List (List Nat)) (q : WordSet)
    (hq : q.mWords ≠ []) (hl : ∃ l ∈ lines, l ≠ []) :
    ∃ e ∈ (Document.ofLines lines).mNonEmtpyLines,
      (Document.ofLines lines).fuzzyFind q = e.1 := by
  have hne := ofLines_ne_nil lines hl
  rcases hes : (Document.ofLines lines).mNonEmtpyLines with _ | ⟨e, rest⟩
  · exact absurd hes hne
  · obtain ⟨s, hs⟩ := measureContainment_isSome e.2 q hq
    have hbound := measureContainment_bounds hs
    unfold Document.fuzzyFind
    rw [hes, fuzzyFindLoop_cons]
    by_cases h1 : s = 1
    · simp only [hs, if_pos h1]
      exact ⟨e, List.mem_cons_self _ _, rfl⟩
    · simp only [hs, if_neg h1, if_pos hbound.1]
      have hmem := fuzzyFindLoop_mem q (fun x => ∃ y ∈ e :: rest, x = y.1)
        rest e.1 s ⟨e, List.mem_cons_self _ _, rfl⟩
        (fun y hy => ⟨y, List.mem_cons_of_mem _ hy, rfl⟩)
      obtain ⟨y, hy, hx⟩ := hmem
      exact ⟨y, hy, hx⟩

theorem fuzzyFind_entry_witness_c10 :
    ∃ e ∈ (Document.ofLines [[97]]).mNonEmtpyLines,
      (Document.ofLines [[97]]).fuzzyFind (WordSet.ofLine [98]) = e.1 :=
  fuzzyFind_returns_entry_c10 [[97]] (WordSet.ofLine [98]) (by decide)
    (by decide)
